import Mathlib

/-!
Shallow embedding of the to-do-list client's pure core, translated from the
TypeScript source, together with theorems checking the natural-language
specification against it.

Covered source:
* `src/lib/objectiveService.ts` — `getActiveSubtasks`, `calculateObjectiveDuration`,
  `toggleSubtaskCompletion` (against the `objective_subtask_completions` table
  and its `UNIQUE(subtask_id, completion_date)` constraint).
* `src/pages/TodosPage.tsx` — `organizeTodos`, the row construction of `handleAddTodo`.
* `src/components/TodoItem.tsx` — `effectiveDone` / `handleToggle`.
* `src/pages/SummaryPage.tsx` — the grouping/sorting part of `fetchSummary`.

Modelling conventions: JS numbers holding integral values become `Int`/`Nat`;
`Date` values become their `getTime()` millisecond value (an `Int`);
ISO `yyyy-mm-dd` date strings, which the code only ever compares with `<`/`>`
(lexicographic = chronological for that fixed format), become day numbers (`Nat`);
uuid strings become `Nat` identifiers.  A JS `Map` becomes an association list
with insertion-order keys, `set` overwriting in place, exactly as `Map` iterates.
-/

namespace TodoApp

/-! ### Data model: objectives (types/objective.ts, supabase SQL)

The runtime display flags `is_active?`/`completed_today?` of `ObjectiveSubtask`
are optional fields absent on rows fetched from the store.  `is_active` is kept
(as a `Bool`, `false` standing for absent) because `getActiveSubtasks` sets it;
`completed_today` is never touched by the code modelled here and is omitted. -/

structure ObjectiveSubtask where
  id : Nat
  task_id : Nat
  title : String
  phase_order : Int
  duration_days : Int
  is_active : Bool := false
  deriving DecidableEq, Repr

structure ObjectiveTask where
  id : Nat
  objective_id : Nat
  title : String
  category : String
  subtasks : List ObjectiveSubtask
  deriving DecidableEq, Repr

structure Objective where
  id : Nat
  title : String
  /-- `new Date(objective.start_date).getTime()` in milliseconds. -/
  start_time : Int
  tasks : List ObjectiveTask
  deriving DecidableEq, Repr

/-- The `1000 * 60 * 60 * 24` divisor of `getActiveSubtasks`. -/
def msPerDay : Int := 1000 * 60 * 60 * 24

/-- `Math.floor((targetDate.getTime() - startDate.getTime()) / (1000*60*60*24))`:
floor division of the millisecond difference. -/
def daysElapsed (objective : Objective) (targetTime : Int) : Int :=
  (targetTime - objective.start_time).fdiv msPerDay

/-- `Math.max(...subtasksInPhase.map(s => s.duration_days))`.  Every phase group
the source applies this to is non-empty; the `[]` branch is unreachable there. -/
def maxDuration : List ObjectiveSubtask → Int
  | [] => 0
  | s :: rest => rest.foldl (fun m t => max m t.duration_days) s.duration_days

/-- The distinct `phase_order` values of a subtask list, sorted ascending:
`Array.from(phaseGroups.keys()).sort((a, b) => a - b)`.  (`Map` keys are the
distinct phase numbers; their iteration order is irrelevant after sorting.) -/
def sortedPhases (subtasks : List ObjectiveSubtask) : List Int :=
  List.insertionSort (· ≤ ·) ((subtasks.map (·.phase_order)).dedup)

/-- The phase group for phase number `p`: `phaseGroups.get(p)`, i.e. the
subtasks with that `phase_order`, in list order. -/
def phaseGroup (subtasks : List ObjectiveSubtask) (p : Int) : List ObjectiveSubtask :=
  subtasks.filter (fun s => s.phase_order = p)

/-- The `{...subtask, is_active: true}` copy pushed onto the result. -/
def markActive (s : ObjectiveSubtask) : ObjectiveSubtask :=
  { s with is_active := true }

/-- Length of a phase: the maximum `duration_days` among the subtasks in that
phase (`const maxDuration = Math.max(...)` over the phase group). -/
def phaseLen (subtasks : List ObjectiveSubtask) (p : Int) : Int :=
  maxDuration (phaseGroup subtasks p)

/-- The phase walk of `getActiveSubtasks`: iterate the sorted phases keeping a
running `phaseStartDay` (each phase ends `phaseLen` days after it starts), and
for the phase containing `daysElapsed` emit the group members whose own
duration has not yet run out. -/
def walkPhases (daysElapsed : Int) (subtasks : List ObjectiveSubtask) :
    List Int → Int → List ObjectiveSubtask
  | [], _ => []
  | phase :: rest, phaseStartDay =>
    (if phaseStartDay ≤ daysElapsed ∧ daysElapsed < phaseStartDay + phaseLen subtasks phase then
      ((phaseGroup subtasks phase).filter
          (fun s => daysElapsed - phaseStartDay < s.duration_days)).map markActive
    else []) ++
      walkPhases daysElapsed subtasks rest (phaseStartDay + phaseLen subtasks phase)

/-- The per-task body of the loop in `getActiveSubtasks` (`if (subtasks.length
=== 0) continue;` then group, sort and walk the phases from day 0). -/
def activeSubtasksOfTask (daysElapsed : Int) (task : ObjectiveTask) : List ObjectiveSubtask :=
  if task.subtasks.isEmpty then []
  else walkPhases daysElapsed task.subtasks (sortedPhases task.subtasks) 0

/-- `getActiveSubtasks(objective, targetDate)` from objectiveService.ts. -/
def getActiveSubtasks (objective : Objective) (targetTime : Int) : List ObjectiveSubtask :=
  let e := daysElapsed objective targetTime
  if e < 0 then []
  else (objective.tasks.map (activeSubtasksOfTask e)).flatten

/-- Sum of the lengths of the phases of `phases` that are strictly below `p`. -/
def sumBefore (subtasks : List ObjectiveSubtask) (phases : List Int) (p : Int) : Int :=
  ((phases.filter (· < p)).map (phaseLen subtasks)).sum

/-- Start day of phase `p` as the spec words it: the sum of the lengths of all
earlier (strictly smaller-numbered) phases. -/
def phaseStartDay (subtasks : List ObjectiveSubtask) (p : Int) : Int :=
  sumBefore subtasks (sortedPhases subtasks) p

/-- The activity condition of the spec for a subtask `s` whose phase starts at
day `base`: the elapsed day `e` lies in the phase window and `s`'s own
duration has not yet run out. -/
def phaseWindow (subtasks : List ObjectiveSubtask) (base e : Int) (s : ObjectiveSubtask) : Prop :=
  base ≤ e ∧ e < base + phaseLen subtasks s.phase_order ∧ e - base < s.duration_days

/-- The per-task accumulation of `calculateObjectiveDuration`: sum the max
duration of each phase group (`Map.forEach` iteration order does not matter
for a sum, so the sum runs over the distinct phase numbers). -/
def taskDuration (subtasks : List ObjectiveSubtask) : Int :=
  (((subtasks.map (·.phase_order)).dedup).map (phaseLen subtasks)).sum

/-- `calculateObjectiveDuration(objective)` from objectiveService.ts:
skip subtask-less tasks, keep the longest task chain. -/
def calculateObjectiveDuration (objective : Objective) : Int :=
  objective.tasks.foldl
    (fun totalDuration task =>
      if task.subtasks.isEmpty then totalDuration
      else if totalDuration < taskDuration task.subtasks then taskDuration task.subtasks
      else totalDuration)
    0

/-- Total duration of a task as the spec words it: the sum over its distinct
phase numbers (ascending) of that phase's maximum subtask duration. -/
def taskTotalSpec (subtasks : List ObjectiveSubtask) : Int :=
  ((sortedPhases subtasks).map (phaseLen subtasks)).sum

/-! ### Helper lemmas about the phase machinery -/

lemma markActive_fields {a b : ObjectiveSubtask} (h : markActive a = markActive b) :
    a.phase_order = b.phase_order ∧ a.duration_days = b.duration_days := by
  cases a; cases b
  simp only [markActive, ObjectiveSubtask.mk.injEq, and_true] at h
  obtain ⟨-, -, -, h4, h5⟩ := h
  exact ⟨h4, h5⟩

lemma markActive_phase (s : ObjectiveSubtask) : (markActive s).phase_order = s.phase_order := rfl

lemma le_foldlMaxDur (l : List ObjectiveSubtask) :
    ∀ init : Int, init ≤ l.foldl (fun m t => max m t.duration_days) init ∧
      ∀ t ∈ l, t.duration_days ≤ l.foldl (fun m t => max m t.duration_days) init := by
  induction l with
  | nil => simp
  | cons hd tl ih =>
    intro init
    refine ⟨?_, ?_⟩
    · calc init ≤ max init hd.duration_days := le_max_left _ _
        _ ≤ _ := (ih (max init hd.duration_days)).1
    · intro t ht
      rcases List.mem_cons.mp ht with rfl | ht
      · calc t.duration_days ≤ max init t.duration_days := le_max_right _ _
          _ ≤ _ := (ih _).1
      · exact (ih _).2 t ht

lemma mem_le_maxDuration {s : ObjectiveSubtask} {l : List ObjectiveSubtask} (h : s ∈ l) :
    s.duration_days ≤ maxDuration l := by
  cases l with
  | nil => cases h
  | cons hd tl =>
    rcases List.mem_cons.mp h with rfl | h
    · exact (le_foldlMaxDur tl _).1
    · exact (le_foldlMaxDur tl _).2 s h

lemma mem_phaseGroup {s : ObjectiveSubtask} {subs : List ObjectiveSubtask} {p : Int} :
    s ∈ phaseGroup subs p ↔ s ∈ subs ∧ s.phase_order = p := by
  simp [phaseGroup]

lemma mem_sortedPhases {subs : List ObjectiveSubtask} {p : Int} :
    p ∈ sortedPhases subs ↔ ∃ s ∈ subs, s.phase_order = p := by
  unfold sortedPhases
  rw [(List.perm_insertionSort _ _).mem_iff, List.mem_dedup, List.mem_map]

lemma sortedPhases_pairwise (subs : List ObjectiveSubtask) :
    (sortedPhases subs).Pairwise (· < ·) := by
  have hs : (sortedPhases subs).Sorted (· ≤ ·) := List.sorted_insertionSort _ _
  have hn : (sortedPhases subs).Nodup :=
    (List.perm_insertionSort _ _).nodup_iff.mpr (List.nodup_dedup _)
  exact hs.lt_of_le hn

lemma sumBefore_cons_self {subs : List ObjectiveSubtask} {phase : Int} {rest : List Int}
    (hlt : ∀ q ∈ rest, phase < q) :
    sumBefore subs (phase :: rest) phase = 0 := by
  unfold sumBefore
  rw [List.filter_cons_of_neg (by simp), List.filter_eq_nil_iff.mpr, List.map_nil, List.sum_nil]
  intro q hq
  simpa using (hlt q hq).not_lt

lemma sumBefore_cons_lt {subs : List ObjectiveSubtask} {phase p : Int} {rest : List Int}
    (hpl : phase < p) :
    sumBefore subs (phase :: rest) p = phaseLen subs phase + sumBefore subs rest p := by
  unfold sumBefore
  rw [List.filter_cons_of_pos (by simpa using hpl), List.map_cons, List.sum_cons]

lemma mem_walkPhases_iff (e : Int) (subs : List ObjectiveSubtask) (x : ObjectiveSubtask)
    (phases : List Int) :
    ∀ start : Int, phases.Pairwise (· < ·) →
      (x ∈ walkPhases e subs phases start ↔
        ∃ s, s ∈ subs ∧ x = markActive s ∧ s.phase_order ∈ phases ∧
          phaseWindow subs (start + sumBefore subs phases s.phase_order) e s) := by
  induction phases with
  | nil => intro start _; simp [walkPhases]
  | cons phase rest ih =>
    intro start hpw
    obtain ⟨hlt, hrest⟩ := List.pairwise_cons.mp hpw
    rw [walkPhases, List.mem_append, ih (start + phaseLen subs phase) hrest]
    constructor
    · rintro (hmem | ⟨s, hssubs, hx, hsrest, hwin⟩)
      · by_cases hc : start ≤ e ∧ e < start + phaseLen subs phase
        · rw [if_pos hc] at hmem
          obtain ⟨s, hsf, hx⟩ := List.mem_map.mp hmem
          obtain ⟨hsg, hdur⟩ := List.mem_filter.mp hsf
          obtain ⟨hssubs, hsphase⟩ := mem_phaseGroup.mp hsg
          refine ⟨s, hssubs, hx.symm, by rw [hsphase]; exact List.mem_cons_self _ _, ?_⟩
          rw [hsphase, sumBefore_cons_self hlt, add_zero]
          exact ⟨hc.1, by rw [hsphase]; exact hc.2, by simpa using hdur⟩
        · rw [if_neg hc] at hmem
          exact absurd hmem (List.not_mem_nil x)
      · refine ⟨s, hssubs, hx, List.mem_cons_of_mem _ hsrest, ?_⟩
        rw [sumBefore_cons_lt (hlt _ hsrest), ← add_assoc]
        exact hwin
    · rintro ⟨s, hssubs, hx, hsmem, hwin⟩
      rcases List.mem_cons.mp hsmem with hsphase | hsrest
      · left
        rw [hsphase, sumBefore_cons_self hlt, add_zero] at hwin
        obtain ⟨h1, h2, h3⟩ := hwin
        rw [hsphase] at h2
        rw [if_pos ⟨h1, h2⟩]
        exact List.mem_map.mpr
          ⟨s, List.mem_filter.mpr ⟨mem_phaseGroup.mpr ⟨hssubs, hsphase⟩, by simpa using h3⟩,
            hx.symm⟩
      · right
        refine ⟨s, hssubs, hx, hsrest, ?_⟩
        rw [sumBefore_cons_lt (hlt _ hsrest), ← add_assoc] at hwin
        exact hwin

lemma phaseLen_nonneg {subs : List ObjectiveSubtask} {p : Int}
    (hp : p ∈ sortedPhases subs) (hdur : ∀ s ∈ subs, 0 ≤ s.duration_days) :
    0 ≤ phaseLen subs p := by
  obtain ⟨s, hs, hsp⟩ := mem_sortedPhases.mp hp
  have hmem : s ∈ phaseGroup subs p := mem_phaseGroup.mpr ⟨hs, hsp⟩
  exact le_trans (hdur s hs) (mem_le_maxDuration hmem)

lemma mem_activeSubtasksOfTask_iff (e : Int) (task : ObjectiveTask) (x : ObjectiveSubtask) :
    x ∈ activeSubtasksOfTask e task ↔
      ∃ s, s ∈ task.subtasks ∧ x = markActive s ∧
        phaseWindow task.subtasks (phaseStartDay task.subtasks s.phase_order) e s := by
  unfold activeSubtasksOfTask
  by_cases hemp : task.subtasks.isEmpty
  · rw [if_pos hemp]
    have hnil : task.subtasks = [] := List.isEmpty_iff.mp hemp
    simp [hnil]
  · rw [if_neg hemp,
      mem_walkPhases_iff e task.subtasks x (sortedPhases task.subtasks) 0
        (sortedPhases_pairwise _)]
    constructor
    · rintro ⟨s, h1, h2, _, h4⟩
      rw [zero_add] at h4
      exact ⟨s, h1, h2, h4⟩
    · rintro ⟨s, h1, h2, h4⟩
      refine ⟨s, h1, h2, mem_sortedPhases.mpr ⟨s, h1, rfl⟩, ?_⟩
      rw [zero_add]
      exact h4

/-- C1.  A subtask `s` of a task `t` (with the database invariant that a
subtask row belongs to exactly one of the objective's tasks, phrased up to the
`is_active` display flag) is in `getActiveSubtasks objective targetDate` iff
the elapsed whole days `e` (floor of the day difference between start and
target) satisfies: `e ≥ 0`; `e` lies in `s`'s phase window
`[phaseStartDay, phaseStartDay + phaseLen)` (phases are `t`'s distinct phase
numbers sorted ascending, each phase's length the maximum `duration_days`
among its subtasks, its start the sum of the lengths of all earlier phases);
and `e - phaseStartDay < s.duration_days`.  In particular, when `e < 0` the
result is empty for every objective. -/
theorem getActiveSubtasks_mem_iff (objective : Objective) (targetTime : Int)
    (t : ObjectiveTask) (s : ObjectiveSubtask)
    (ht : t ∈ objective.tasks) (hs : s ∈ t.subtasks)
    (huniq : ∀ t' ∈ objective.tasks, ∀ s' ∈ t'.subtasks,
      markActive s' = markActive s → t' = t) :
    (markActive s ∈ getActiveSubtasks objective targetTime ↔
      (0 ≤ daysElapsed objective targetTime ∧
        phaseStartDay t.subtasks s.phase_order ≤ daysElapsed objective targetTime ∧
        daysElapsed objective targetTime <
          phaseStartDay t.subtasks s.phase_order + phaseLen t.subtasks s.phase_order ∧
        daysElapsed objective targetTime - phaseStartDay t.subtasks s.phase_order <
          s.duration_days)) ∧
    (daysElapsed objective targetTime < 0 → getActiveSubtasks objective targetTime = []) := by
  refine ⟨⟨?_, ?_⟩, ?_⟩
  · intro hmem
    simp only [getActiveSubtasks] at hmem
    by_cases he : daysElapsed objective targetTime < 0
    · rw [if_pos he] at hmem
      cases hmem
    · rw [if_neg he] at hmem
      obtain ⟨l, hl, hxl⟩ := List.mem_flatten.mp hmem
      obtain ⟨t', ht', rfl⟩ := List.mem_map.mp hl
      obtain ⟨s', hs', hxeq, hwin⟩ := (mem_activeSubtasksOfTask_iff _ _ _).mp hxl
      have hteq : t' = t := huniq t' ht' s' hs' hxeq.symm
      subst hteq
      obtain ⟨hph, hdur⟩ := markActive_fields hxeq
      unfold phaseWindow at hwin
      rw [← hph, ← hdur] at hwin
      exact ⟨by omega, hwin.1, hwin.2.1, hwin.2.2⟩
  · rintro ⟨he0, h1, h2, h3⟩
    simp only [getActiveSubtasks]
    rw [if_neg (by omega)]
    refine List.mem_flatten.mpr
      ⟨activeSubtasksOfTask (daysElapsed objective targetTime) t,
        List.mem_map.mpr ⟨t, ht, rfl⟩, ?_⟩
    exact (mem_activeSubtasksOfTask_iff _ _ _).mpr ⟨s, hs, rfl, h1, h2, h3⟩
  · intro he
    simp only [getActiveSubtasks]
    rw [if_pos he]

/-! ### Concrete scenario data (spec section 8)

Millisecond times are taken relative to 2025-01-01T00:00:00Z, the objective's
start date: the target 2025-01-01 is time `0`, 2025-01-04 is `3 * msPerDay`
(elapsed 3), 2025-01-06 is `5 * msPerDay` (elapsed 5). -/

def subtaskDur3 : ObjectiveSubtask := ⟨1, 10, "three-day subtask", 1, 3, false⟩

def subtaskDur5 : ObjectiveSubtask := ⟨2, 10, "five-day subtask", 1, 5, false⟩

def taskA : ObjectiveTask := ⟨10, 100, "Task A", "study", [subtaskDur3, subtaskDur5]⟩

def objScenario : Objective := ⟨100, "scenario objective", 0, [taskA]⟩

/-- C6.  For an objective starting 2025-01-01 whose single task has one phase
(phase 1) with two subtasks of duration 3 and 5 days: on 2025-01-01
(elapsed 0) both subtasks are active, on 2025-01-04 (elapsed 3) only the
5-day one, on 2025-01-06 (elapsed 5) neither; the objective duration is 5. -/
theorem scenario_activeSubtasks_and_duration :
    getActiveSubtasks objScenario 0 = [markActive subtaskDur3, markActive subtaskDur5] ∧
    getActiveSubtasks objScenario (3 * msPerDay) = [markActive subtaskDur5] ∧
    getActiveSubtasks objScenario (5 * msPerDay) = [] ∧
    calculateObjectiveDuration objScenario = 5 := by
  refine ⟨?_, ?_, ?_, ?_⟩ <;> decide

/-- Witness for `getActiveSubtasks_mem_iff`: on the scenario objective at
elapsed day 3, the five-day subtask is a member of the active list. -/
theorem getActiveSubtasks_mem_iff_witness :
    markActive subtaskDur5 ∈ getActiveSubtasks objScenario (3 * msPerDay) :=
  ((getActiveSubtasks_mem_iff objScenario (3 * msPerDay) taskA subtaskDur5
      (by decide) (by decide) (by decide)).1).mpr (by decide)

/-! ### Disjointness of the phase windows (C9) -/

lemma sumBefore_cons_of_not_lt {subs : List ObjectiveSubtask} {r p : Int} {L : List Int}
    (h : ¬r < p) :
    sumBefore subs (r :: L) p = sumBefore subs L p := by
  unfold sumBefore
  rw [List.filter_cons_of_neg (by simpa using h)]

lemma sumBefore_mono_le (subs : List ObjectiveSubtask) {p q : Int} (hpq : p ≤ q) :
    ∀ L : List Int, (∀ r ∈ L, 0 ≤ phaseLen subs r) →
      sumBefore subs L p ≤ sumBefore subs L q := by
  intro L
  induction L with
  | nil => intro _; simp [sumBefore]
  | cons r L' ih =>
    intro hnn
    have hr := hnn r (List.mem_cons_self _ _)
    have htl : ∀ a ∈ L', 0 ≤ phaseLen subs a := fun a ha => hnn a (List.mem_cons_of_mem _ ha)
    have IH := ih htl
    by_cases h1 : r < p
    · rw [sumBefore_cons_lt h1, sumBefore_cons_lt (lt_of_lt_of_le h1 hpq)]
      omega
    · rw [sumBefore_cons_of_not_lt h1]
      by_cases h2 : r < q
      · rw [sumBefore_cons_lt h2]
        omega
      · rw [sumBefore_cons_of_not_lt h2]
        exact IH

lemma sumBefore_add_len_le (subs : List ObjectiveSubtask) {p q : Int} (hpq : p < q) :
    ∀ L : List Int, (∀ r ∈ L, 0 ≤ phaseLen subs r) → p ∈ L →
      sumBefore subs L p + phaseLen subs p ≤ sumBefore subs L q := by
  intro L
  induction L with
  | nil => intro _ hp; cases hp
  | cons r L' ih =>
    intro hnn hp
    have hr0 := hnn r (List.mem_cons_self _ _)
    have htl : ∀ a ∈ L', 0 ≤ phaseLen subs a := fun a ha => hnn a (List.mem_cons_of_mem _ ha)
    rcases List.mem_cons.mp hp with rfl | hp'
    · rw [sumBefore_cons_of_not_lt (lt_irrefl p), sumBefore_cons_lt hpq]
      have := sumBefore_mono_le subs (le_of_lt hpq) L' htl
      omega
    · by_cases h1 : r < p
      · rw [sumBefore_cons_lt h1, sumBefore_cons_lt (h1.trans hpq)]
        have := ih htl hp'
        omega
      · rw [sumBefore_cons_of_not_lt h1]
        by_cases h2 : r < q
        · rw [sumBefore_cons_lt h2]
          have := ih htl hp'
          omega
        · rw [sumBefore_cons_of_not_lt h2]
          exact ih htl hp'

lemma phaseWindows_disjoint {subs : List ObjectiveSubtask} {p q : Int}
    (hp : p ∈ sortedPhases subs) (hq : q ∈ sortedPhases subs) (hpq : p ≠ q)
    (hdur : ∀ s ∈ subs, 0 ≤ s.duration_days) (d : Int) :
    ¬(phaseStartDay subs p ≤ d ∧ d < phaseStartDay subs p + phaseLen subs p ∧
      phaseStartDay subs q ≤ d ∧ d < phaseStartDay subs q + phaseLen subs q) := by
  have hnn : ∀ r ∈ sortedPhases subs, 0 ≤ phaseLen subs r := fun r hr =>
    phaseLen_nonneg hr hdur
  rintro ⟨h1, h2, h3, h4⟩
  rcases lt_or_gt_of_ne hpq with h | h
  · have := sumBefore_add_len_le subs h (sortedPhases subs) hnn hp
    unfold phaseStartDay at h1 h2 h3 h4
    omega
  · have := sumBefore_add_len_le subs h (sortedPhases subs) hnn hq
    unfold phaseStartDay at h1 h2 h3 h4
    omega

/-- C9 (implicit).  Provided every subtask of a task has a non-negative
`duration_days`, the phase windows `[phaseStartDay, phaseStartDay + phaseLen)`
that `getActiveSubtasks` walks for that task are pairwise disjoint, so all
subtasks of the task appearing in the active list for a given day share one
`phase_order` value: at most one phase of a task is active on a given date. -/
theorem activeSubtasks_share_phase (e : Int) (task : ObjectiveTask)
    (hdur : ∀ s ∈ task.subtasks, 0 ≤ s.duration_days) :
    (∀ p ∈ sortedPhases task.subtasks, ∀ q ∈ sortedPhases task.subtasks, p ≠ q → ∀ d : Int,
      ¬(phaseStartDay task.subtasks p ≤ d ∧
          d < phaseStartDay task.subtasks p + phaseLen task.subtasks p ∧
          phaseStartDay task.subtasks q ≤ d ∧
          d < phaseStartDay task.subtasks q + phaseLen task.subtasks q)) ∧
    ∀ x ∈ activeSubtasksOfTask e task, ∀ y ∈ activeSubtasksOfTask e task,
      x.phase_order = y.phase_order := by
  constructor
  · intro p hp q hq hpq d
    exact phaseWindows_disjoint hp hq hpq hdur d
  · intro x hx y hy
    obtain ⟨sx, hsx, rfl, hwx⟩ := (mem_activeSubtasksOfTask_iff _ _ _).mp hx
    obtain ⟨sy, hsy, rfl, hwy⟩ := (mem_activeSubtasksOfTask_iff _ _ _).mp hy
    rw [markActive_phase, markActive_phase]
    by_contra hne
    unfold phaseWindow at hwx hwy
    exact phaseWindows_disjoint (mem_sortedPhases.mpr ⟨sx, hsx, rfl⟩)
      (mem_sortedPhases.mpr ⟨sy, hsy, rfl⟩) hne hdur e
      ⟨hwx.1, hwx.2.1, hwy.1, hwy.2.1⟩

/-- Two-phase task from spec section 8: phase 1 has durations 5 and 3,
phase 2 has duration 4. -/
def taskB : ObjectiveTask :=
  ⟨11, 101, "Task B", "study", [⟨3, 11, "p1 five", 1, 5, false⟩,
    ⟨4, 11, "p1 three", 1, 3, false⟩, ⟨5, 11, "p2 four", 2, 4, false⟩]⟩

/-- Witness for `activeSubtasks_share_phase`: on day 2 of the two-phase task,
the two listed active subtasks carry the same phase number. -/
theorem activeSubtasks_share_phase_witness :
    (markActive ⟨3, 11, "p1 five", 1, 5, false⟩).phase_order =
      (markActive ⟨4, 11, "p1 three", 1, 3, false⟩).phase_order :=
  (activeSubtasks_share_phase 2 taskB (by decide)).2
    (markActive ⟨3, 11, "p1 five", 1, 5, false⟩) (by decide)
    (markActive ⟨4, 11, "p1 three", 1, 3, false⟩) (by decide)

/-! ### Objective duration (C2) -/

lemma taskDuration_eq_spec (subs : List ObjectiveSubtask) :
    taskDuration subs = taskTotalSpec subs := by
  unfold taskDuration taskTotalSpec sortedPhases
  exact (((List.perm_insertionSort (· ≤ ·) _).map (phaseLen subs)).sum_eq).symm

lemma foldl_max_le (l : List Int) :
    ∀ init : Int, init ≤ l.foldl max init ∧ ∀ a ∈ l, a ≤ l.foldl max init := by
  induction l with
  | nil => simp
  | cons hd tl ih =>
    intro init
    refine ⟨?_, ?_⟩
    · calc init ≤ max init hd := le_max_left _ _
        _ ≤ _ := (ih (max init hd)).1
    · intro a ha
      rcases List.mem_cons.mp ha with rfl | ha
      · calc a ≤ max init a := le_max_right _ _
          _ ≤ _ := (ih _).1
      · exact (ih _).2 a ha

lemma calcDuration_foldl_eq (tasks : List ObjectiveTask) :
    ∀ init : Int,
      tasks.foldl (fun totalDuration task =>
        if task.subtasks.isEmpty then totalDuration
        else if totalDuration < taskDuration task.subtasks then taskDuration task.subtasks
        else totalDuration) init
      = ((tasks.filter (fun t => !t.subtasks.isEmpty)).map
          (fun t => taskTotalSpec t.subtasks)).foldl max init := by
  induction tasks with
  | nil => intro init; rfl
  | cons t ts ih =>
    intro init
    by_cases hemp : t.subtasks.isEmpty
    · rw [List.foldl_cons, if_pos hemp, List.filter_cons_of_neg (by simp [hemp])]
      exact ih init
    · rw [List.foldl_cons, if_neg hemp, List.filter_cons_of_pos (by simp [hemp]),
        List.map_cons, List.foldl_cons, ih, taskDuration_eq_spec]
      congr 1
      rcases lt_trichotomy init (taskTotalSpec t.subtasks) with h | h | h
      · rw [if_pos h, max_eq_right (le_of_lt h)]
      · rw [if_neg (by omega), max_eq_right (le_of_eq h)]
        omega
      · rw [if_neg (by omega), max_eq_left (le_of_lt h)]

/-- C2.  `calculateObjectiveDuration` equals the maximum (with the empty
maximum taken as 0) over the objective's tasks-with-subtasks of that task's
total duration, a task's total being the sum over its distinct phase numbers
of the maximum `duration_days` in the phase; tasks with zero subtasks are
skipped, an objective with no contributing task has duration 0, and the
result is at least every single task's total (the max, not the sum). -/
theorem calculateObjectiveDuration_spec (objective : Objective) :
    calculateObjectiveDuration objective =
      ((objective.tasks.filter (fun t => !t.subtasks.isEmpty)).map
        (fun t => taskTotalSpec t.subtasks)).foldl max 0 ∧
    (∀ t ∈ objective.tasks, taskTotalSpec t.subtasks ≤ calculateObjectiveDuration objective) ∧
    ((∀ t ∈ objective.tasks, t.subtasks.isEmpty) → calculateObjectiveDuration objective = 0) := by
  have heq : calculateObjectiveDuration objective =
      ((objective.tasks.filter (fun t => !t.subtasks.isEmpty)).map
        (fun t => taskTotalSpec t.subtasks)).foldl max 0 :=
    calcDuration_foldl_eq objective.tasks 0
  refine ⟨heq, ?_, ?_⟩
  · intro t htm
    rw [heq]
    by_cases hemp : t.subtasks.isEmpty
    · have hnil : t.subtasks = [] := List.isEmpty_iff.mp hemp
      have hzero : taskTotalSpec t.subtasks = 0 := by rw [hnil]; rfl
      rw [hzero]
      exact (foldl_max_le _ 0).1
    · refine (foldl_max_le _ 0).2 _ (List.mem_map.mpr ⟨t, ?_, rfl⟩)
      exact List.mem_filter.mpr ⟨htm, by simp [hemp]⟩
  · intro hall
    rw [heq, List.filter_eq_nil_iff.mpr (fun t htm => by simp [hall t htm])]
    rfl

/-- Witness for `calculateObjectiveDuration_spec`: the scenario objective's
duration is at least the total of its single task. -/
theorem calculateObjectiveDuration_spec_witness :
    taskTotalSpec taskA.subtasks ≤ calculateObjectiveDuration objScenario :=
  (calculateObjectiveDuration_spec objScenario).2.1 taskA (by decide)

/-! ### Daily todos and the TodoItem component (types/todo.ts, TodoItem.tsx)

A `Todo` as `TodoItem` renders it: `subtasks?: Todo[]` is the optional
children array populated on the frontend, `none` standing for absent.
Fields not read by the modelled component (dates, category, recurrence) are
omitted from this tree type; the flat row type used by `organizeTodos` and
`handleAddTodo` appears further below with those fields. -/

inductive Todo where
  | mk (id : Nat) (title : String) (done : Bool) (parent_id : Option Nat)
      (subtasks : Option (List Todo))

def Todo.id : Todo → Nat
  | .mk i _ _ _ _ => i

def Todo.title : Todo → String
  | .mk _ t _ _ _ => t

def Todo.done : Todo → Bool
  | .mk _ _ d _ _ => d

def Todo.parent_id : Todo → Option Nat
  | .mk _ _ _ p _ => p

def Todo.subtasks : Todo → Option (List Todo)
  | .mk _ _ _ _ s => s

/-- `const hasSubtasks = todo.subtasks && todo.subtasks.length > 0`. -/
def hasSubtasks (todo : Todo) : Bool :=
  match todo.subtasks with
  | none => false
  | some l => 0 < l.length

/-- `const subtaskCount = todo.subtasks?.length || 0`. -/
def subtaskCount (todo : Todo) : Nat :=
  match todo.subtasks with
  | none => 0
  | some l => l.length

/-- `const completedSubtasks = todo.subtasks?.filter(s => s.done).length || 0`. -/
def completedSubtasks (todo : Todo) : Nat :=
  match todo.subtasks with
  | none => 0
  | some l => (l.filter (·.done)).length

/-- `const isAutoCompleted = hasSubtasks && completedSubtasks === subtaskCount`. -/
def isAutoCompleted (todo : Todo) : Bool :=
  hasSubtasks todo && (completedSubtasks todo == subtaskCount todo)

/-- `const effectiveDone = hasSubtasks ? isAutoCompleted : todo.done`. -/
def effectiveDone (todo : Todo) : Bool :=
  if hasSubtasks todo then isAutoCompleted todo else todo.done

/-- `handleToggle` of TodoItem, seen as the toggle request it issues: with
subtasks present it returns early without calling `onToggle` (`none`);
otherwise it requests `onToggle(todo.id, !todo.done)`. -/
def handleToggle (todo : Todo) : Option (Nat × Bool) :=
  if hasSubtasks todo then none else some (todo.id, !todo.done)

/-- C3.  A Todo rendered by TodoItem with a non-empty subtasks list has
effective done state equal to the AND over its subtasks' stored done flags,
and direct toggling is a no-op; with the list empty or absent the effective
done state is its own stored flag — the vacuous AND over an empty child set
is never used. -/
theorem effectiveDone_spec (t : Todo) :
    (∀ l : List Todo, t.subtasks = some l → l ≠ [] →
      ((effectiveDone t = true ↔ ∀ s ∈ l, s.done = true) ∧ handleToggle t = none)) ∧
    ((t.subtasks = none ∨ t.subtasks = some []) → effectiveDone t = t.done) := by
  constructor
  · intro l hsub hne
    have hhas : hasSubtasks t = true := by
      unfold hasSubtasks
      rw [hsub]
      simpa using List.length_pos.mpr hne
    constructor
    · unfold effectiveDone isAutoCompleted completedSubtasks subtaskCount
      rw [if_pos hhas, hsub, hhas]
      simp only [Bool.true_and, beq_iff_eq]
      rw [List.filter_length_eq_length]
    · unfold handleToggle
      rw [if_pos hhas]
  · intro hcase
    have hhas : hasSubtasks t = false := by
      rcases hcase with h | h <;> simp [hasSubtasks, h]
    unfold effectiveDone
    rw [if_neg (by simp [hhas])]

/-- Witness for `effectiveDone_spec`: toggling a parent that has a child is a
no-op. -/
theorem effectiveDone_spec_witness :
    handleToggle (Todo.mk 1 "parent" true none
      (some [Todo.mk 2 "child" false (some 1) none])) = none :=
  ((effectiveDone_spec (Todo.mk 1 "parent" true none
      (some [Todo.mk 2 "child" false (some 1) none]))).1
    [Todo.mk 2 "child" false (some 1) none] rfl (by simp)).2

/-! ### organizeTodos (pages/TodosPage.tsx)

A `FlatTodo` is a row of the `todos` table as fetched for one user and date;
fields never read by `organizeTodos` (user_id, created_at, category and the
recurrence columns) are omitted.  The JS `Map` of the function becomes an
association list: `set` overwrites the first entry with the key in place and
otherwise appends, `get` returns the first match — since a `Map` never holds
a key twice, only one entry per key ever exists. -/

structure FlatTodo where
  id : Nat
  title : String
  done : Bool
  task_date : Nat
  parent_id : Option Nat
  deriving DecidableEq, Repr

/-- JS `Map.prototype.set`. -/
def mapSet {κ α : Type} [DecidableEq κ] (m : List (κ × α)) (k : κ) (v : α) : List (κ × α) :=
  match m with
  | [] => [(k, v)]
  | e :: rest => if e.1 = k then (k, v) :: rest else e :: mapSet rest k v

/-- JS `Map.prototype.get` (`none` = `undefined`). -/
def mapGet {κ α : Type} [DecidableEq κ] : List (κ × α) → κ → Option α
  | [], _ => none
  | e :: rest, k => if e.1 = k then some e.2 else mapGet rest k

/-- In-place mutation of the value object stored under `k` (a no-op when the
key is absent). -/
def mapUpdate {κ α : Type} [DecidableEq κ] (m : List (κ × α)) (k : κ) (f : α → α) :
    List (κ × α) :=
  match m with
  | [] => []
  | e :: rest => if e.1 = k then (k, f e.2) :: rest else e :: mapUpdate rest k f

/-- The object graph `organizeTodos` builds: each map entry is the spread
copy `{...todo, subtasks: []}` together with its mutable `subtasks` array,
the array kept as the list of the child objects' ids (JS object identity:
a pushed child reference sees all later mutations, which reading children
back through ids reproduces). -/
abbrev TodoHeap := List (Nat × FlatTodo × List Nat)

/-- First pass of `organizeTodos`:
`todoMap.set(todo.id, { ...todo, subtasks: [] })`. -/
def organizePass1 (flatTodos : List FlatTodo) : TodoHeap :=
  flatTodos.foldl (fun m todo => mapSet m todo.id (todo, [])) []

/-- Loop body of the second pass of `organizeTodos`: a todo with truthy
`parent_id` is pushed onto its parent's `subtasks` array when the parent id
is in the map (else it is silently dropped); a todo with null `parent_id` is
pushed (as its map object, here its id) onto `rootTodos`. -/
def organizeStep (st : TodoHeap × List Nat) (todo : FlatTodo) : TodoHeap × List Nat :=
  match todo.parent_id with
  | some p =>
    match mapGet st.1 p with
    | some _ => (mapUpdate st.1 p (fun e => (e.1, e.2 ++ [todo.id])), st.2)
    | none => st
  | none => (st.1, st.2 ++ [todo.id])

/-- Second pass of `organizeTodos`. -/
def organizePass2 (flatTodos : List FlatTodo) (m0 : TodoHeap) : TodoHeap × List Nat :=
  flatTodos.foldl organizeStep (m0, [])

/-- A node of the returned forest: the row data plus its `subtasks`. -/
inductive TreeTodo where
  | mk (data : FlatTodo) (subtasks : List TreeTodo)

def TreeTodo.data : TreeTodo → FlatTodo
  | .mk d _ => d

def TreeTodo.subtasks : TreeTodo → List TreeTodo
  | .mk _ s => s

/-- Materialise the object graph into a tree, reading a node's final
children from the heap (this reproduces the JS aliasing: a child reference
pushed early sees all later `subtasks.push` mutations).  `fuel` bounds the
depth — `flatTodos.length` suffices for any acyclic graph; the placeholder
leaf for a missing id or exhausted fuel carries the looked-up id. -/
def buildNode (m : TodoHeap) : Nat → Nat → TreeTodo
  | 0, i => .mk ⟨i, "", false, 0, none⟩ []
  | fuel + 1, i =>
    match mapGet m i with
    | some (todo, children) => .mk todo (children.map (buildNode m fuel))
    | none => .mk ⟨i, "", false, 0, none⟩ []

/-- `organizeTodos(flatTodos)` from TodosPage.tsx: the returned `rootTodos`
array, materialised. -/
def organizeTodos (flatTodos : List FlatTodo) : List TreeTodo :=
  let m := organizePass1 flatTodos
  let st := organizePass2 flatTodos m
  st.2.map (buildNode st.1 flatTodos.length)

mutual

/-- Occurrence of row data `x` anywhere in a tree: at its root or in any
(transitive) subtask. -/
def containsTodo (x : FlatTodo) : TreeTodo → Bool
  | .mk d subs => (d == x) || containsTodoList x subs

def containsTodoList (x : FlatTodo) : List TreeTodo → Bool
  | [] => false
  | t :: ts => containsTodo x t || containsTodoList x ts

end

/-! ### Association-list lemmas -/

lemma mapGet_mapSet_self {κ α : Type} [DecidableEq κ] (m : List (κ × α)) (k : κ) (v : α) :
    mapGet (mapSet m k v) k = some v := by
  induction m with
  | nil => simp [mapSet, mapGet]
  | cons e rest ih =>
    by_cases he : e.1 = k
    · rw [mapSet, if_pos he, mapGet, if_pos rfl]
    · rw [mapSet, if_neg he, mapGet, if_neg he]
      exact ih

lemma mapGet_mapSet_ne {κ α : Type} [DecidableEq κ] (m : List (κ × α)) {k k' : κ} (v : α)
    (h : k' ≠ k) :
    mapGet (mapSet m k v) k' = mapGet m k' := by
  induction m with
  | nil => simp [mapSet, mapGet, Ne.symm h]
  | cons e rest ih =>
    by_cases he : e.1 = k
    · rw [mapSet, if_pos he, mapGet, if_neg (fun hc => h hc.symm), mapGet,
        if_neg (fun hc => h (he.symm.trans hc).symm)]
    · rw [mapSet, if_neg he, mapGet, mapGet]
      by_cases he' : e.1 = k'
      · rw [if_pos he', if_pos he']
      · rw [if_neg he', if_neg he']
        exact ih

lemma mapGet_mapUpdate_self {κ α : Type} [DecidableEq κ] (m : List (κ × α)) {k : κ}
    {v : α} (f : α → α) (h : mapGet m k = some v) :
    mapGet (mapUpdate m k f) k = some (f v) := by
  induction m with
  | nil => cases h
  | cons e rest ih =>
    by_cases he : e.1 = k
    · rw [mapGet, if_pos he] at h
      rw [mapUpdate, if_pos he, mapGet, if_pos rfl, Option.some_inj.mp h]
    · rw [mapGet, if_neg he] at h
      rw [mapUpdate, if_neg he, mapGet, if_neg he]
      exact ih h

lemma mapGet_mapUpdate_ne {κ α : Type} [DecidableEq κ] (m : List (κ × α)) {k k' : κ}
    (f : α → α) (h : k' ≠ k) :
    mapGet (mapUpdate m k f) k' = mapGet m k' := by
  induction m with
  | nil => rfl
  | cons e rest ih =>
    by_cases he : e.1 = k
    · rw [mapUpdate, if_pos he, mapGet, if_neg (fun hc => h hc.symm), mapGet,
        if_neg (by rw [he]; exact fun hc => h hc.symm)]
    · rw [mapUpdate, if_neg he, mapGet, mapGet]
      by_cases he' : e.1 = k'
      · rw [if_pos he', if_pos he']
      · rw [if_neg he', if_neg he']
        exact ih

lemma mapGet_mapUpdate_none {κ α : Type} [DecidableEq κ] (m : List (κ × α)) {k : κ}
    (f : α → α) (h : mapGet m k = none) :
    mapGet (mapUpdate m k f) k = none := by
  induction m with
  | nil => rfl
  | cons e rest ih =>
    by_cases he : e.1 = k
    · rw [mapGet, if_pos he] at h
      cases h
    · rw [mapGet, if_neg he] at h
      rw [mapUpdate, if_neg he, mapGet, if_neg he]
      exact ih h

/-! ### Characterisation of the two passes of organizeTodos -/

lemma pass1_go_none (flat : List FlatTodo) :
    ∀ (acc : TodoHeap) (k : Nat),
      (mapGet (flat.foldl (fun m todo => mapSet m todo.id (todo, [])) acc) k = none ↔
        mapGet acc k = none ∧ ∀ t ∈ flat, t.id ≠ k) := by
  induction flat with
  | nil => intro acc k; simp
  | cons hd rest ih =>
    intro acc k
    rw [List.foldl_cons, ih]
    by_cases hk : hd.id = k
    · constructor
      · rintro ⟨h1, -⟩
        rw [← hk, mapGet_mapSet_self] at h1
        cases h1
      · rintro ⟨-, h2⟩
        exact absurd hk (h2 hd (List.mem_cons_self _ _))
    · rw [mapGet_mapSet_ne _ _ (Ne.symm hk)]
      constructor
      · rintro ⟨h1, h2⟩
        refine ⟨h1, fun t htm => ?_⟩
        rcases List.mem_cons.mp htm with rfl | htm'
        · exact hk
        · exact h2 t htm'
      · rintro ⟨h1, h2⟩
        exact ⟨h1, fun t htm => h2 t (List.mem_cons_of_mem _ htm)⟩

lemma pass1_go_some (flat : List FlatTodo) :
    ∀ (acc : TodoHeap) (k : Nat) (v : FlatTodo) (cs : List Nat),
      mapGet (flat.foldl (fun m todo => mapSet m todo.id (todo, [])) acc) k = some (v, cs) →
      mapGet acc k = some (v, cs) ∨ (v ∈ flat ∧ v.id = k ∧ cs = []) := by
  induction flat with
  | nil => intro acc k v cs h; exact Or.inl h
  | cons hd rest ih =>
    intro acc k v cs h
    rw [List.foldl_cons] at h
    rcases ih _ k v cs h with h' | h'
    · by_cases hk : hd.id = k
      · rw [← hk, mapGet_mapSet_self] at h'
        injection h' with h''
        injection h'' with h1 h2
        subst h1
        subst h2
        exact Or.inr ⟨List.mem_cons_self _ _, hk, rfl⟩
      · rw [mapGet_mapSet_ne _ _ (Ne.symm hk)] at h'
        exact Or.inl h'
    · exact Or.inr ⟨List.mem_cons_of_mem _ h'.1, h'.2⟩

lemma pass1_go_stable (flat : List FlatTodo) :
    ∀ (acc : TodoHeap) (k : Nat) (v : FlatTodo × List Nat),
      mapGet acc k = some v →
      (∀ u ∈ flat, u.id = k → ((u, []) : FlatTodo × List Nat) = v) →
      mapGet (flat.foldl (fun m todo => mapSet m todo.id (todo, [])) acc) k = some v := by
  induction flat with
  | nil => intro acc k v h _; exact h
  | cons hd rest ih =>
    intro acc k v h hu
    rw [List.foldl_cons]
    refine ih _ k v ?_ (fun u hum hk => hu u (List.mem_cons_of_mem _ hum) hk)
    by_cases hk : hd.id = k
    · rw [← hk, mapGet_mapSet_self, hu hd (List.mem_cons_self _ _) hk]
    · rw [mapGet_mapSet_ne _ _ (Ne.symm hk)]
      exact h

lemma pass1_go_mem (flat : List FlatTodo) :
    ∀ (acc : TodoHeap) (t : FlatTodo), t ∈ flat →
      (∀ u ∈ flat, u.id = t.id → u = t) →
      mapGet (flat.foldl (fun m todo => mapSet m todo.id (todo, [])) acc) t.id =
        some (t, []) := by
  induction flat with
  | nil => intro _ t h; cases h
  | cons hd rest ih =>
    intro acc t htm huniq
    rw [List.foldl_cons]
    rcases List.mem_cons.mp htm with rfl | htm'
    · refine pass1_go_stable rest _ t.id (t, []) (mapGet_mapSet_self acc t.id (t, [])) ?_
      intro u hum hk
      rw [huniq u (List.mem_cons_of_mem _ hum) hk]
    · exact ih _ t htm' (fun u hum hk => huniq u (List.mem_cons_of_mem _ hum) hk)

lemma pass2_go_spec (flat : List FlatTodo) :
    ∀ (m : TodoHeap) (r : List Nat),
      (flat.foldl organizeStep (m, r)).2
          = r ++ (flat.filter (fun t => t.parent_id = none)).map (·.id) ∧
      (∀ k, mapGet (flat.foldl organizeStep (m, r)).1 k = none ↔ mapGet m k = none) ∧
      (∀ k v cs, mapGet m k = some (v, cs) →
        mapGet (flat.foldl organizeStep (m, r)).1 k =
          some (v, cs ++ (flat.filter (fun t => t.parent_id = some k)).map (·.id))) := by
  induction flat with
  | nil => intro m r; refine ⟨by simp, fun k => Iff.rfl, fun k v cs h => by simpa using h⟩
  | cons todo rest ih =>
    intro m r
    rw [List.foldl_cons]
    cases hpar : todo.parent_id with
    | none =>
      have hstep : organizeStep (m, r) todo = (m, r ++ [todo.id]) := by
        simp [organizeStep, hpar]
      rw [hstep]
      refine ⟨?_, (ih m _).2.1, ?_⟩
      · rw [(ih m _).1, List.filter_cons_of_pos (by simp [hpar]), List.map_cons,
          List.append_assoc]
        rfl
      · intro k v cs h
        rw [(ih m _).2.2 k v cs h, List.filter_cons_of_neg (by simp [hpar])]
    | some p =>
      cases hg : mapGet m p with
      | none =>
        have hstep : organizeStep (m, r) todo = (m, r) := by
          simp [organizeStep, hpar, hg]
        rw [hstep]
        refine ⟨?_, (ih m r).2.1, ?_⟩
        · rw [(ih m r).1, List.filter_cons_of_neg (by simp [hpar])]
        · intro k v cs h
          have hkp : p ≠ k := fun hc => by rw [hc, h] at hg; cases hg
          rw [(ih m r).2.2 k v cs h, List.filter_cons_of_neg (by simp [hpar, hkp])]
      | some w =>
        have hstep : organizeStep (m, r) todo =
            (mapUpdate m p (fun e => (e.1, e.2 ++ [todo.id])), r) := by
          simp [organizeStep, hpar, hg]
        rw [hstep]
        set m' := mapUpdate m p (fun e => (e.1, e.2 ++ [todo.id])) with hm'
        refine ⟨?_, ?_, ?_⟩
        · rw [(ih m' r).1, List.filter_cons_of_neg (by simp [hpar])]
        · intro k
          rw [(ih m' r).2.1 k]
          by_cases hk : k = p
          · subst hk
            constructor
            · intro hno
              rcases hnew : mapGet m k with _ | w'
              · rfl
              · rw [hm', mapGet_mapUpdate_self m _ hnew] at hno
                cases hno
            · intro hno
              rw [hno] at hg
              cases hg
          · rw [hm', mapGet_mapUpdate_ne m _ hk]
        · intro k v cs h
          by_cases hk : k = p
          · subst hk
            have hw : w = (v, cs) := Option.some_inj.mp (hg.symm.trans h)
            have hupd : mapGet m' k = some (v, cs ++ [todo.id]) := by
              rw [hm', mapGet_mapUpdate_self m _ h]
            rw [(ih m' r).2.2 k v (cs ++ [todo.id]) hupd,
              List.filter_cons_of_pos (by simp [hpar]), List.map_cons, List.append_assoc]
            rfl
          · have hstay : mapGet m' k = some (v, cs) := by
              rw [hm', mapGet_mapUpdate_ne m _ hk]
              exact h
            rw [(ih m' r).2.2 k v cs hstay,
              List.filter_cons_of_neg (by simp [hpar, Ne.symm hk])]

lemma pass1_none_iff (flat : List FlatTodo) (k : Nat) :
    mapGet (organizePass1 flat) k = none ↔ ∀ t ∈ flat, t.id ≠ k := by
  unfold organizePass1
  rw [pass1_go_none flat [] k]
  simp [mapGet]

lemma containsTodoList_eq_any (x : FlatTodo) (l : List TreeTodo) :
    containsTodoList x l = l.any (containsTodo x) := by
  induction l with
  | nil => rfl
  | cons t ts ih => rw [containsTodoList, List.any_cons, ih]

lemma buildNode_data_id (m : TodoHeap)
    (hM : ∀ k v cs, mapGet m k = some (v, cs) → v.id = k) (fuel i : Nat) :
    (buildNode m fuel i).data.id = i := by
  cases fuel with
  | zero => rfl
  | succ n =>
    rcases hget : mapGet m i with _ | ⟨v, cs⟩
    · simp [buildNode, hget, TreeTodo.data]
    · simp [buildNode, hget, TreeTodo.data, hM i v cs hget]

lemma buildNode_not_contains (m : TodoHeap) (x : FlatTodo)
    (hM : ∀ k v cs, mapGet m k = some (v, cs) → v.id = k ∧ x.id ∉ cs) :
    ∀ fuel i : Nat, i ≠ x.id → containsTodo x (buildNode m fuel i) = false := by
  intro fuel
  induction fuel with
  | zero =>
    intro i hi
    simp only [buildNode, containsTodo, containsTodoList, Bool.or_false]
    exact beq_eq_false_iff_ne.mpr fun heq => hi (congrArg FlatTodo.id heq)
  | succ n ih =>
    intro i hi
    rcases hget : mapGet m i with _ | ⟨v, cs⟩
    · simp only [buildNode, hget, containsTodo, containsTodoList, Bool.or_false]
      exact beq_eq_false_iff_ne.mpr fun heq => hi (congrArg FlatTodo.id heq)
    · obtain ⟨hvid, hnotin⟩ := hM i v cs hget
      simp only [buildNode, hget, containsTodo, containsTodoList_eq_any, Bool.or_eq_false_iff]
      refine ⟨beq_eq_false_iff_ne.mpr fun heq => hi ?_, ?_⟩
      · rw [← hvid, heq]
      · rw [List.any_eq_false]
        intro a ha
        obtain ⟨c, hc, rfl⟩ := List.mem_map.mp ha
        have hcne : c ≠ x.id := fun hcx => hnotin (hcx ▸ hc)
        simp [ih c hcne]

/-- C4.  For every flat list of todo rows with pairwise-distinct ids (ids are
the table's primary key), an element whose `parent_id` is non-null but is not
the id of any element of the list appears nowhere in the forest returned by
`organizeTodos` — neither as a root nor in anyone's (transitive) subtasks:
orphaned children are silently dropped. -/
theorem organizeTodos_drops_orphans (flat : List FlatTodo) (x : FlatTodo) (p : Nat)
    (hx : x ∈ flat) (hp : x.parent_id = some p) (horphan : ∀ y ∈ flat, y.id ≠ p)
    (hnodup : (flat.map (·.id)).Nodup) :
    (organizeTodos flat).all (fun n => !containsTodo x n) = true := by
  have hinj : ∀ u ∈ flat, ∀ w ∈ flat, u.id = w.id → u = w := fun u hu w hw h =>
    List.inj_on_of_nodup_map hnodup hu hw h
  have hspec := pass2_go_spec flat (organizePass1 flat) []
  have horg : organizeTodos flat =
      (flat.foldl organizeStep (organizePass1 flat, [])).2.map
        (buildNode (flat.foldl organizeStep (organizePass1 flat, [])).1 flat.length) := rfl
  have hMprop : ∀ k v cs,
      mapGet (flat.foldl organizeStep (organizePass1 flat, [])).1 k = some (v, cs) →
      v.id = k ∧ x.id ∉ cs := by
    intro k v cs hk
    rcases hget1 : mapGet (organizePass1 flat) k with _ | ⟨v₀, cs₀⟩
    · rw [(hspec.2.1 k).mpr hget1] at hk
      cases hk
    · rcases pass1_go_some flat [] k v₀ cs₀ hget1 with h | ⟨hmem₀, hid₀, hnil₀⟩
      · cases h
      · subst hnil₀
        rw [hspec.2.2 k v₀ [] hget1, List.nil_append] at hk
        injection hk with hk'
        injection hk' with hkv hkcs
        subst hkv
        subst hkcs
        refine ⟨hid₀, fun hxmem => ?_⟩
        obtain ⟨y, hyf, hyid⟩ := List.mem_map.mp hxmem
        have hy : y ∈ flat := List.mem_of_mem_filter hyf
        have hyx : y = x := hinj y hy x hx hyid
        have hpk : x.parent_id = some k := by
          have := List.of_mem_filter hyf
          rw [hyx] at this
          simpa using this
        have hkp : k = p := by
          rw [hp] at hpk
          exact (Option.some_inj.mp hpk).symm
        subst hkp
        have : ∃ t ∈ flat, t.id = k := by
          by_contra hno
          push_neg at hno
          rw [(pass1_none_iff flat k).mpr hno] at hget1
          cases hget1
        obtain ⟨t, htf, htid⟩ := this
        exact horphan t htf htid
  have hA : x.id ∉ (flat.foldl organizeStep (organizePass1 flat, [])).2 := by
    rw [hspec.1, List.nil_append]
    intro hmem
    obtain ⟨y, hyf, hyid⟩ := List.mem_map.mp hmem
    have hy : y ∈ flat := List.mem_of_mem_filter hyf
    have hyx : y = x := hinj y hy x hx hyid
    have : x.parent_id = none := by
      have := List.of_mem_filter hyf
      rw [hyx] at this
      simpa using this
    rw [hp] at this
    cases this
  rw [horg, List.all_eq_true]
  intro n hn
  obtain ⟨r, hr, rfl⟩ := List.mem_map.mp hn
  have hrx : r ≠ x.id := fun hc => hA (hc ▸ hr)
  have := buildNode_not_contains _ x hMprop flat.length r hrx
  simp [this]

/-- C5.  `organizeTodos` on the empty list returns the empty forest; on a
list of rows with distinct ids all of whose `parent_id`s are null it returns
the forest of childless roots in input order with the input rows as data;
and in general the root ids match the input order of the parent-less rows. -/
theorem organizeTodos_flat_spec :
    organizeTodos ([] : List FlatTodo) = [] ∧
    (∀ flat : List FlatTodo, (flat.map (·.id)).Nodup →
      (∀ t ∈ flat, t.parent_id = none) →
      organizeTodos flat = flat.map (fun t => TreeTodo.mk t [])) ∧
    (∀ flat : List FlatTodo,
      (organizeTodos flat).map (fun n => n.data.id) =
        (flat.filter (fun t => t.parent_id = none)).map (·.id)) := by
  refine ⟨rfl, ?_, ?_⟩
  · intro flat hnodup hall
    have hinj : ∀ u ∈ flat, ∀ w ∈ flat, u.id = w.id → u = w := fun u hu w hw h =>
      List.inj_on_of_nodup_map hnodup hu hw h
    have hspec := pass2_go_spec flat (organizePass1 flat) []
    have horg : organizeTodos flat =
        (flat.foldl organizeStep (organizePass1 flat, [])).2.map
          (buildNode (flat.foldl organizeStep (organizePass1 flat, [])).1 flat.length) := rfl
    have hR : (flat.foldl organizeStep (organizePass1 flat, [])).2 = flat.map (·.id) := by
      rw [hspec.1, List.nil_append, List.filter_eq_self.mpr (fun t ht => by simp [hall t ht])]
    have hMt : ∀ t ∈ flat,
        mapGet (flat.foldl organizeStep (organizePass1 flat, [])).1 t.id = some (t, []) := by
      intro t ht
      have h1 : mapGet (organizePass1 flat) t.id = some (t, []) :=
        pass1_go_mem flat [] t ht (fun u hu hk => hinj u hu t ht hk)
      rw [hspec.2.2 t.id t [] h1, List.nil_append,
        List.filter_eq_nil_iff.mpr (fun u hu => by simp [hall u hu])]
      rfl
    rw [horg, hR, List.map_map]
    refine List.map_congr_left ?_
    intro t ht
    have hlen : ∃ n, flat.length = n + 1 := by
      cases hflat : flat with
      | nil => rw [hflat] at ht; cases ht
      | cons a l => exact ⟨l.length, rfl⟩
    obtain ⟨n, hn⟩ := hlen
    rw [Function.comp_apply, hn]
    simp [buildNode, hMt t ht]
  · intro flat
    have hspec := pass2_go_spec flat (organizePass1 flat) []
    have horg : organizeTodos flat =
        (flat.foldl organizeStep (organizePass1 flat, [])).2.map
          (buildNode (flat.foldl organizeStep (organizePass1 flat, [])).1 flat.length) := rfl
    have hM : ∀ k v cs,
        mapGet (flat.foldl organizeStep (organizePass1 flat, [])).1 k = some (v, cs) →
        v.id = k := by
      intro k v cs hk
      rcases hget1 : mapGet (organizePass1 flat) k with _ | ⟨v₀, cs₀⟩
      · rw [(hspec.2.1 k).mpr hget1] at hk
        cases hk
      · rcases pass1_go_some flat [] k v₀ cs₀ hget1 with h | ⟨-, hid₀, hnil₀⟩
        · cases h
        · subst hnil₀
          rw [hspec.2.2 k v₀ [] hget1, List.nil_append] at hk
          injection hk with hk'
          injection hk' with hkv hkcs
          subst hkv
          exact hid₀
    rw [horg, List.map_map]
    have hcomp : ((fun n => n.data.id) ∘
        buildNode (flat.foldl organizeStep (organizePass1 flat, [])).1 flat.length) =
        fun r : Nat => r :=
      funext fun r => buildNode_data_id _ hM flat.length r
    rw [hcomp, List.map_id', hspec.1, List.nil_append]

/-- Witness for `organizeTodos_drops_orphans`: a concrete two-row list where
the second row's parent is absent. -/
theorem organizeTodos_drops_orphans_witness :
    (organizeTodos [⟨1, "a", false, 0, none⟩, ⟨9, "x", false, 0, some 99⟩]).all
      (fun n => !containsTodo ⟨9, "x", false, 0, some 99⟩ n) = true :=
  organizeTodos_drops_orphans _ ⟨9, "x", false, 0, some 99⟩ 99
    (by decide) rfl (by decide) (by decide)

/-- Witness for `organizeTodos_flat_spec`: two parent-less rows come back as
two childless roots in order. -/
theorem organizeTodos_flat_spec_witness :
    organizeTodos [⟨1, "a", false, 0, none⟩, ⟨2, "b", true, 0, none⟩] =
      [TreeTodo.mk ⟨1, "a", false, 0, none⟩ [], TreeTodo.mk ⟨2, "b", true, 0, none⟩ []] :=
  organizeTodos_flat_spec.2.1 _ (by decide) (by decide)

/-! ### Subtask completions (objectiveService.ts + objective_subtask_completions)

A row of `objective_subtask_completions`, with the generated `id` and
`created_at` (never read by the modelled code) omitted.  The table carries
`UNIQUE(subtask_id, completion_date)`: an insert violating it errors, which
`toggleSubtaskCompletion` ignores, leaving the table unchanged. -/

structure CompletionRow where
  subtask_id : Nat
  user_id : Nat
  completion_date : Nat
  deriving DecidableEq, Repr

/-- The `insert` branch of `toggleSubtaskCompletion`: append the row unless
the `UNIQUE(subtask_id, completion_date)` constraint rejects it. -/
def insertCompletion (store : List CompletionRow) (subtaskId userId : Nat) (dateStr : Nat) :
    List CompletionRow :=
  if store.any (fun r => r.subtask_id = subtaskId ∧ r.completion_date = dateStr) then store
  else store ++ [⟨subtaskId, userId, dateStr⟩]

/-- The `delete` branch: remove the rows matching all three `.eq` filters. -/
def deleteCompletion (store : List CompletionRow) (subtaskId userId : Nat) (dateStr : Nat) :
    List CompletionRow :=
  store.filter (fun r =>
    ¬(r.subtask_id = subtaskId ∧ r.user_id = userId ∧ r.completion_date = dateStr))

/-- `toggleSubtaskCompletion(subtaskId, userId, dateStr, completed)`. -/
def toggleSubtaskCompletion (store : List CompletionRow) (subtaskId userId : Nat)
    (dateStr : Nat) (completed : Bool) : List CompletionRow :=
  if completed then insertCompletion store subtaskId userId dateStr
  else deleteCompletion store subtaskId userId dateStr

/-- The uniqueness invariant of the table: at most one row per
(subtask, date). -/
def atMostOnePerSubtaskDate (store : List CompletionRow) : Prop :=
  store.Pairwise (fun r1 r2 =>
    ¬(r1.subtask_id = r2.subtask_id ∧ r1.completion_date = r2.completion_date))

/-- The per-subtask completed-for-date aggregate derived from the store, as
`fetchActiveSubtasksForToday` derives it (a subtask id is completed when some
row for this user and date carries it). -/
def completedFor (store : List CompletionRow) (userId dateStr subtaskId : Nat) : Bool :=
  store.any (fun r =>
    r.user_id = userId ∧ r.completion_date = dateStr ∧ r.subtask_id = subtaskId)

/-- Counterexample to C7 as stated: from a prior store that already holds the
row (subtask 0, user 0, date 0) — a store satisfying the uniqueness
invariant — toggling on (a constraint-violating no-op) and then off (which
deletes the pre-existing row) does not return the store to its prior value,
and the completed-for-date aggregate flips. -/
theorem toggleCompletion_roundtrip_cex :
    atMostOnePerSubtaskDate [⟨0, 0, 0⟩] ∧
    toggleSubtaskCompletion (toggleSubtaskCompletion [⟨0, 0, 0⟩] 0 0 0 true) 0 0 0 false ≠
      [⟨0, 0, 0⟩] ∧
    completedFor
      (toggleSubtaskCompletion (toggleSubtaskCompletion [⟨0, 0, 0⟩] 0 0 0 true) 0 0 0 false)
      0 0 0 ≠ completedFor [⟨0, 0, 0⟩] 0 0 0 := by
  refine ⟨?_, by decide, by decide⟩
  simp [atMostOnePerSubtaskDate]

/-- C7 (amended).  For every prior store holding no row for the toggled
(subtaskId, userId, dateStr), toggling the completion on and then off
returns the store — and hence every completed-for-date aggregate derived
from it — to its prior value. -/
theorem toggleCompletion_roundtrip (store : List CompletionRow)
    (subtaskId userId dateStr : Nat)
    (hfree : ∀ r ∈ store,
      ¬(r.subtask_id = subtaskId ∧ r.user_id = userId ∧ r.completion_date = dateStr)) :
    toggleSubtaskCompletion (toggleSubtaskCompletion store subtaskId userId dateStr true)
        subtaskId userId dateStr false = store ∧
    ∀ u d s : Nat,
      completedFor
        (toggleSubtaskCompletion (toggleSubtaskCompletion store subtaskId userId dateStr true)
          subtaskId userId dateStr false) u d s = completedFor store u d s := by
  have hfilter : deleteCompletion store subtaskId userId dateStr = store :=
    List.filter_eq_self.mpr (fun r hr => decide_eq_true (hfree r hr))
  have hmain : toggleSubtaskCompletion
      (toggleSubtaskCompletion store subtaskId userId dateStr true)
      subtaskId userId dateStr false = store := by
    unfold toggleSubtaskCompletion
    rw [if_pos rfl, if_neg Bool.false_ne_true]
    unfold insertCompletion
    by_cases hdup :
        store.any (fun r => r.subtask_id = subtaskId ∧ r.completion_date = dateStr) = true
    · rw [if_pos hdup]
      exact hfilter
    · rw [if_neg hdup]
      unfold deleteCompletion at hfilter ⊢
      rw [List.filter_append, hfilter]
      simp
  exact ⟨hmain, fun u d s => by rw [hmain]⟩

/-- Witness for `toggleCompletion_roundtrip`: toggling subtask 1 on and off
over a prior store holding only a row for a different subtask restores it. -/
theorem toggleCompletion_roundtrip_witness :
    toggleSubtaskCompletion (toggleSubtaskCompletion [⟨2, 0, 0⟩] 1 0 0 true) 1 0 0 false =
      [⟨2, 0, 0⟩] :=
  (toggleCompletion_roundtrip [⟨2, 0, 0⟩] 1 0 0 (by decide)).1

/-! ### handleAddTodo row construction (pages/TodosPage.tsx)

The rows `handleAddTodo` accumulates in `tasksToCreate` before the single
`insert` call.  Calendar days are day numbers (the JS `Date`/`setDate`
arithmetic carries month rollover; `+ i` days is exactly what it computes);
`crypto.randomUUID()` becomes the `templateId` parameter. -/

structure TodoInsertRow where
  title : String
  task_date : Nat
  user_id : Nat
  parent_id : Option Nat
  category : Option String
  repeat_days : Int
  repeat_start_date : Option Nat
  template_id : Option Nat
  deriving DecidableEq, Repr

/-- The loop of `handleAddTodo`: one row per day for
`totalDays = repeatDays > 0 ? repeatDays : 1` consecutive days from today. -/
def handleAddTodoRows (title : String) (category : Option String) (repeatDays : Int)
    (todayDate userId templateId : Nat) : List TodoInsertRow :=
  (List.range (if 0 < repeatDays then repeatDays else 1).toNat).map (fun i =>
    { title := title
      task_date := todayDate + i
      user_id := userId
      parent_id := none
      category := category
      repeat_days := repeatDays
      repeat_start_date := if 0 < repeatDays then some todayDate else none
      template_id := if 0 < repeatDays then some templateId else none })

/-- C8.  Adding a task with repeat length `N > 0` constructs exactly `N` row
inserts, one per consecutive calendar day starting at today, all carrying
`repeat_days = N`, `repeat_start_date = today` and one freshly generated
`template_id` shared by all of them; with `N = 0` it constructs exactly one
row dated today with `template_id = null` and `repeat_start_date = null`. -/
theorem handleAddTodo_spec (title : String) (category : Option String) (repeatDays : Int)
    (todayDate userId templateId : Nat) :
    (0 < repeatDays →
      ((handleAddTodoRows title category repeatDays todayDate userId templateId).length : Int)
          = repeatDays ∧
      (handleAddTodoRows title category repeatDays todayDate userId templateId).map
          (·.task_date) = (List.range repeatDays.toNat).map (todayDate + ·) ∧
      ∀ r ∈ handleAddTodoRows title category repeatDays todayDate userId templateId,
        r.title = title ∧ r.user_id = userId ∧ r.parent_id = none ∧ r.category = category ∧
        r.repeat_days = repeatDays ∧ r.repeat_start_date = some todayDate ∧
        r.template_id = some templateId) ∧
    (repeatDays = 0 →
      handleAddTodoRows title category repeatDays todayDate userId templateId =
        [⟨title, todayDate, userId, none, category, 0, none, none⟩]) := by
  constructor
  · intro hpos
    unfold handleAddTodoRows
    simp only [if_pos hpos]
    refine ⟨?_, ?_, ?_⟩
    · rw [List.length_map, List.length_range]
      omega
    · rw [List.map_map]
      rfl
    · intro r hr
      obtain ⟨i, -, rfl⟩ := List.mem_map.mp hr
      exact ⟨rfl, rfl, rfl, rfl, rfl, rfl, rfl⟩
  · intro hzero
    subst hzero
    unfold handleAddTodoRows
    rfl

/-- Witness for `handleAddTodo_spec`: a 3-day series carries three rows on
days 7, 8, 9, and a non-repeating add is a single row for today. -/
theorem handleAddTodo_spec_witness :
    (handleAddTodoRows "run" (some "health") 3 7 5 42).map (·.task_date) =
        (List.range (Int.toNat 3)).map (7 + ·) ∧
    handleAddTodoRows "run" (some "health") 0 7 5 42 =
      [⟨"run", 7, 5, none, some "health", 0, none, none⟩] :=
  ⟨((handleAddTodo_spec "run" (some "health") 3 7 5 42).1 (by decide)).2.1,
    (handleAddTodo_spec "run" (some "health") 0 7 5 42).2 rfl⟩

/-! ### Monthly summary grouping (pages/SummaryPage.tsx)

A `SummaryRow` is one row of the `fetchSummary` query result (completed main
tasks of the month, in query order): its title and its `task_date`.  ISO
`yyyy-mm-dd` strings, which the code compares only with `>`, become day
numbers.  `trim().toLowerCase()` is modelled on ASCII casing. -/

structure SummaryRow where
  title : String
  task_date : Nat
  deriving DecidableEq, Repr

structure TaskSummary where
  title : String
  count : Nat
  lastCompleted : Nat
  deriving DecidableEq, Repr

/-- `task.title.trim().toLowerCase()`. -/
def normalizeTitle (s : String) : String := s.trim.toLower

/-- Loop body of the `titleCounts` fold: `existing.count++`, and
`lastCompleted` is replaced when the new date compares greater; an unseen key
starts at `(1, task.task_date)`. -/
def titleCountsStep (m : List (String × Nat × Nat)) (task : SummaryRow) :
    List (String × Nat × Nat) :=
  match mapGet m (normalizeTitle task.title) with
  | some _ => mapUpdate m (normalizeTitle task.title)
      (fun e => (e.1 + 1, if e.2 < task.task_date then task.task_date else e.2))
  | none => mapSet m (normalizeTitle task.title) (1, task.task_date)

/-- The `titleCounts` map of `fetchSummary`. -/
def buildTitleCounts (rows : List SummaryRow) : List (String × Nat × Nat) :=
  rows.foldl titleCountsStep []

/-- Loop body of the `originalTitles` fold: the first row's casing wins. -/
def originalTitlesStep (m : List (String × String)) (task : SummaryRow) :
    List (String × String) :=
  match mapGet m (normalizeTitle task.title) with
  | some _ => m
  | none => mapSet m (normalizeTitle task.title) task.title

/-- The `originalTitles` map of `fetchSummary`. -/
def buildOriginalTitles (rows : List SummaryRow) : List (String × String) :=
  rows.foldl originalTitlesStep []

/-- The pure tail of `fetchSummary`: assemble `summaryArray` from
`titleCounts` in map order, title each entry `originalTitles.get(key) || key`,
and sort by count descending (JS `Array.sort` is stable, as is the insertion
sort used here). -/
def fetchSummaryEntries (rows : List SummaryRow) : List TaskSummary :=
  let titleCounts := buildTitleCounts rows
  let originalTitles := buildOriginalTitles rows
  let summaryArray := titleCounts.map (fun e =>
    { title := (mapGet originalTitles e.1).getD e.1
      count := e.2.1
      lastCompleted := e.2.2 })
  List.insertionSort (fun a b => b.count ≤ a.count) summaryArray

/-- The rows grouped under normalized key `k`, in query order. -/
def rowsWithKey (rows : List SummaryRow) (k : String) : List SummaryRow :=
  rows.filter (fun r => normalizeTitle r.title = k)

/-- Maximum `task_date` of a group (`0` for the empty group, which no
produced key has). -/
def maxTaskDate : List SummaryRow → Nat
  | [] => 0
  | r :: rest => rest.foldl (fun m t => max m t.task_date) r.task_date

/-- The summary entry the spec describes for key `k`: the count of rows whose
normalized title is `k`, the maximum of their dates, and the title of the
first such row in query order. -/
def specEntry (rows : List SummaryRow) (k : String) : TaskSummary :=
  { title := ((rows.find? (fun r => normalizeTitle r.title = k)).map (·.title)).getD k
    count := (rowsWithKey rows k).length
    lastCompleted := maxTaskDate (rowsWithKey rows k) }

/-! ### Characterisation of the fetchSummary folds -/

lemma mapGet_none_iff {κ α : Type} [DecidableEq κ] (m : List (κ × α)) (k : κ) :
    mapGet m k = none ↔ k ∉ m.map (·.1) := by
  induction m with
  | nil => simp [mapGet]
  | cons e rest ih =>
    by_cases he : e.1 = k
    · rw [mapGet, if_pos he]
      simp [he]
    · rw [mapGet, if_neg he]
      simp [ih, Ne.symm he]

lemma mapGet_of_mem_nodup {κ α : Type} [DecidableEq κ] {m : List (κ × α)} {k : κ} {v : α}
    (hnd : (m.map (·.1)).Nodup) (hmem : (k, v) ∈ m) :
    mapGet m k = some v := by
  induction m with
  | nil => cases hmem
  | cons e rest ih =>
    rw [List.map_cons, List.nodup_cons] at hnd
    rcases List.mem_cons.mp hmem with rfl | hmem'
    · rw [mapGet, if_pos rfl]
    · by_cases he : e.1 = k
      · exact absurd (he ▸ List.mem_map.mpr ⟨(k, v), hmem', rfl⟩) hnd.1
      · rw [mapGet, if_neg he]
        exact ih hnd.2 hmem'

lemma mem_keys_mapSet {κ α : Type} [DecidableEq κ] (m : List (κ × α)) (k k' : κ) (v : α) :
    k' ∈ (mapSet m k v).map (·.1) ↔ k' ∈ m.map (·.1) ∨ k' = k := by
  induction m with
  | nil => simp [mapSet]
  | cons e rest ih =>
    by_cases he : e.1 = k
    · rw [mapSet, if_pos he]
      simp [he]
      tauto
    · rw [mapSet, if_neg he]
      simp [ih]
      tauto

lemma keys_mapUpdate {κ α : Type} [DecidableEq κ] (m : List (κ × α)) (k : κ) (f : α → α) :
    (mapUpdate m k f).map (·.1) = m.map (·.1) := by
  induction m with
  | nil => rfl
  | cons e rest ih =>
    by_cases he : e.1 = k
    · rw [mapUpdate, if_pos he]
      simp [he]
    · rw [mapUpdate, if_neg he]
      simp [ih]

lemma nodup_keys_mapSet {κ α : Type} [DecidableEq κ] (m : List (κ × α)) (k : κ) (v : α)
    (h : (m.map (·.1)).Nodup) : ((mapSet m k v).map (·.1)).Nodup := by
  induction m with
  | nil => simp [mapSet]
  | cons e rest ih =>
    rw [List.map_cons, List.nodup_cons] at h
    by_cases he : e.1 = k
    · rw [mapSet, if_pos he, List.map_cons, List.nodup_cons]
      exact ⟨he ▸ h.1, h.2⟩
    · rw [mapSet, if_neg he, List.map_cons, List.nodup_cons]
      refine ⟨fun hc => ?_, ih h.2⟩
      rcases (mem_keys_mapSet rest k e.1 v).mp hc with h' | h'
      · exact h.1 h'
      · exact he h'

lemma titleCounts_go (rows : List SummaryRow) :
    ∀ (acc : List (String × Nat × Nat)) (k : String),
      (mapGet acc k = none →
        mapGet (rows.foldl titleCountsStep acc) k =
          (match rowsWithKey rows k with
           | [] => none
           | _ :: _ => some ((rowsWithKey rows k).length, maxTaskDate (rowsWithKey rows k)))) ∧
      (∀ c l, mapGet acc k = some (c, l) →
        mapGet (rows.foldl titleCountsStep acc) k =
          some (c + (rowsWithKey rows k).length,
            (rowsWithKey rows k).foldl (fun m t => max m t.task_date) l)) := by
  induction rows with
  | nil =>
    intro acc k
    constructor
    · intro h
      simpa [rowsWithKey] using h
    · intro c l h
      simpa [rowsWithKey] using h
  | cons t rest ih =>
    intro acc k
    by_cases hk : normalizeTitle t.title = k
    · have hfil : rowsWithKey (t :: rest) k = t :: rowsWithKey rest k := by
        unfold rowsWithKey
        rw [List.filter_cons_of_pos (by simpa using hk)]
      constructor
      · intro hnone
        have hstep : titleCountsStep acc t = mapSet acc k (1, t.task_date) := by
          simp [titleCountsStep, hk, hnone]
        rw [List.foldl_cons, hstep, hfil,
          (ih (mapSet acc k (1, t.task_date)) k).2 1 t.task_date (mapGet_mapSet_self _ _ _)]
        have hlen : 1 + (rowsWithKey rest k).length = (t :: rowsWithKey rest k).length := by
          rw [List.length_cons]
          omega
        rw [hlen]
        rfl
      · intro c l hsome
        have hstep : titleCountsStep acc t =
            mapUpdate acc k
              (fun e => (e.1 + 1, if e.2 < t.task_date then t.task_date else e.2)) := by
          simp [titleCountsStep, hk, hsome]
        have hupd : mapGet (mapUpdate acc k
            (fun e => (e.1 + 1, if e.2 < t.task_date then t.task_date else e.2))) k =
            some (c + 1, if l < t.task_date then t.task_date else l) :=
          mapGet_mapUpdate_self acc _ hsome
        rw [List.foldl_cons, hstep, hfil,
          (ih _ k).2 (c + 1) (if l < t.task_date then t.task_date else l) hupd]
        have hif : (if l < t.task_date then t.task_date else l) = max l t.task_date := by
          rcases Nat.lt_or_ge l t.task_date with h | h
          · rw [if_pos h, Nat.max_eq_right (Nat.le_of_lt h)]
          · rw [if_neg (Nat.not_lt.mpr h), Nat.max_eq_left h]
        have hlen : (c + 1) + (rowsWithKey rest k).length =
            c + (t :: rowsWithKey rest k).length := by
          rw [List.length_cons]
          omega
        rw [hif, hlen]
        rfl
    · have hfil : rowsWithKey (t :: rest) k = rowsWithKey rest k := by
        unfold rowsWithKey
        rw [List.filter_cons_of_neg (by simpa using hk)]
      have hstep : mapGet (titleCountsStep acc t) k = mapGet acc k := by
        unfold titleCountsStep
        rcases hkt : mapGet acc (normalizeTitle t.title) with _ | v
        · exact mapGet_mapSet_ne _ _ (fun hc => hk hc.symm)
        · exact mapGet_mapUpdate_ne _ _ (fun hc => hk hc.symm)
      constructor
      · intro hnone
        rw [List.foldl_cons, hfil]
        exact (ih _ k).1 (hstep.trans hnone)
      · intro c l hsome
        rw [List.foldl_cons, hfil]
        exact (ih _ k).2 c l (hstep.trans hsome)

lemma titleCounts_none_iff (rows : List SummaryRow) (k : String) :
    mapGet (buildTitleCounts rows) k = none ↔ rowsWithKey rows k = [] := by
  unfold buildTitleCounts
  rw [(titleCounts_go rows [] k).1 rfl]
  cases hr : rowsWithKey rows k with
  | nil => simp
  | cons a l => simp

lemma titleCounts_some (rows : List SummaryRow) (k : String)
    (h : rowsWithKey rows k ≠ []) :
    mapGet (buildTitleCounts rows) k =
      some ((rowsWithKey rows k).length, maxTaskDate (rowsWithKey rows k)) := by
  unfold buildTitleCounts
  rw [(titleCounts_go rows [] k).1 rfl]
  cases hr : rowsWithKey rows k with
  | nil => exact absurd hr h
  | cons a l => rfl

lemma titleCounts_keys_nodup (rows : List SummaryRow) :
    ((buildTitleCounts rows).map (·.1)).Nodup := by
  unfold buildTitleCounts
  suffices h : ∀ acc : List (String × Nat × Nat), (acc.map (·.1)).Nodup →
      ((rows.foldl titleCountsStep acc).map (·.1)).Nodup from h [] (by simp)
  induction rows with
  | nil => exact fun acc h => h
  | cons t rest ih =>
    intro acc hacc
    rw [List.foldl_cons]
    refine ih _ ?_
    unfold titleCountsStep
    rcases hkt : mapGet acc (normalizeTitle t.title) with _ | v
    · exact nodup_keys_mapSet _ _ _ hacc
    · rw [keys_mapUpdate]
      exact hacc

lemma originalTitles_go (rows : List SummaryRow) :
    ∀ (acc : List (String × String)) (k : String),
      (mapGet acc k = none →
        mapGet (rows.foldl originalTitlesStep acc) k =
          (rows.find? (fun r => normalizeTitle r.title = k)).map (·.title)) ∧
      (∀ v, mapGet acc k = some v →
        mapGet (rows.foldl originalTitlesStep acc) k = some v) := by
  induction rows with
  | nil =>
    intro acc k
    exact ⟨fun h => by simpa using h, fun v h => h⟩
  | cons t rest ih =>
    intro acc k
    by_cases hk : normalizeTitle t.title = k
    · constructor
      · intro hnone
        have hstep : originalTitlesStep acc t = mapSet acc k t.title := by
          simp [originalTitlesStep, hk, hnone]
        rw [List.foldl_cons, hstep, List.find?_cons_of_pos _ (by simpa using hk)]
        exact (ih _ k).2 t.title (mapGet_mapSet_self _ _ _)
      · intro v hsome
        have hstep : originalTitlesStep acc t = acc := by
          have : mapGet acc (normalizeTitle t.title) = some v := hk.symm ▸ hsome
          simp [originalTitlesStep, this]
        rw [List.foldl_cons, hstep]
        exact (ih _ k).2 v hsome
    · have hstep : mapGet (originalTitlesStep acc t) k = mapGet acc k := by
        unfold originalTitlesStep
        rcases hkt : mapGet acc (normalizeTitle t.title) with _ | v
        · exact mapGet_mapSet_ne _ _ (fun hc => hk hc.symm)
        · rfl
      constructor
      · intro hnone
        rw [List.foldl_cons, List.find?_cons_of_neg _ (by simpa using hk)]
        exact (ih _ k).1 (hstep.trans hnone)
      · intro v hsome
        rw [List.foldl_cons]
        exact (ih _ k).2 v (hstep.trans hsome)

lemma originalTitles_spec (rows : List SummaryRow) (k : String) :
    mapGet (buildOriginalTitles rows) k =
      (rows.find? (fun r => normalizeTitle r.title = k)).map (·.title) :=
  (originalTitles_go rows [] k).1 rfl

instance : IsTotal TaskSummary (fun a b => b.count ≤ a.count) :=
  ⟨fun a b => le_total b.count a.count⟩

instance : IsTrans TaskSummary (fun a b => b.count ≤ a.count) :=
  ⟨fun _ _ _ hab hbc => le_trans hbc hab⟩

/-- C10 (implicit).  The monthly summary groups the completed main-task rows
by title case-insensitively and ignoring surrounding whitespace: up to the
final ordering, there is exactly one entry per distinct normalized title,
counting the rows with that normalized title, keeping the maximum `task_date`
among them, and displaying the title of the first such row in query order;
and the returned entries are sorted by count descending. -/
theorem fetchSummary_spec (rows : List SummaryRow) :
    (fetchSummaryEntries rows).Perm
      (((rows.map (fun r => normalizeTitle r.title)).dedup).map (specEntry rows)) ∧
    (fetchSummaryEntries rows).Sorted (fun a b => b.count ≤ a.count) := by
  constructor
  · have h1 : (fetchSummaryEntries rows).Perm
        ((buildTitleCounts rows).map (fun e =>
          ({ title := (mapGet (buildOriginalTitles rows) e.1).getD e.1
             count := e.2.1
             lastCompleted := e.2.2 } : TaskSummary))) :=
      List.perm_insertionSort _ _
    have h2 : (buildTitleCounts rows).map (fun e =>
        ({ title := (mapGet (buildOriginalTitles rows) e.1).getD e.1
           count := e.2.1
           lastCompleted := e.2.2 } : TaskSummary)) =
        ((buildTitleCounts rows).map (·.1)).map (specEntry rows) := by
      rw [List.map_map]
      refine List.map_congr_left ?_
      rintro ⟨k, c, l⟩ he
      have hget : mapGet (buildTitleCounts rows) k = some (c, l) :=
        mapGet_of_mem_nodup (titleCounts_keys_nodup rows) he
      have hne : rowsWithKey rows k ≠ [] := by
        intro h0
        rw [(titleCounts_none_iff rows k).mpr h0] at hget
        cases hget
      have hsome := titleCounts_some rows k hne
      rw [hget] at hsome
      injection hsome with hpair
      injection hpair with hc hl
      simp only [Function.comp_apply, specEntry, originalTitles_spec, hc, hl]
    have h3 : ((buildTitleCounts rows).map (·.1)).Perm
        ((rows.map (fun r => normalizeTitle r.title)).dedup) := by
      refine (List.perm_ext_iff_of_nodup (titleCounts_keys_nodup rows)
        (List.nodup_dedup _)).mpr ?_
      intro k
      constructor
      · intro hmem
        rw [List.mem_dedup]
        have hne : mapGet (buildTitleCounts rows) k ≠ none :=
          fun h0 => (mapGet_none_iff _ k).mp h0 hmem
        have hfil : rowsWithKey rows k ≠ [] :=
          fun h0 => hne ((titleCounts_none_iff rows k).mpr h0)
        obtain ⟨r, hr⟩ := List.exists_mem_of_ne_nil _ hfil
        have hrr := List.mem_filter.mp hr
        exact List.mem_map.mpr ⟨r, hrr.1, by simpa using hrr.2⟩
      · intro hmem
        rw [List.mem_dedup] at hmem
        obtain ⟨r, hrm, hrk⟩ := List.mem_map.mp hmem
        by_contra hnot
        have h0 : mapGet (buildTitleCounts rows) k = none := (mapGet_none_iff _ k).mpr hnot
        have hfil := (titleCounts_none_iff rows k).mp h0
        have hrin : r ∈ rowsWithKey rows k :=
          List.mem_filter.mpr ⟨hrm, by simpa using hrk⟩
        rw [hfil] at hrin
        cases hrin
    exact (h2 ▸ h1).trans (h3.map (specEntry rows))
  · exact List.sorted_insertionSort _ _

end TodoApp
